import Mathlib

set_option linter.unusedVariables false
set_option maxRecDepth 10000

namespace Collam

/-! Shallow embedding of the collam allocator core: src/src/alloc/block.rs,
src/src/alloc/list.rs, src/src/alloc/arena/heap.rs, src/src/sources.rs,
src/src/alloc/mod.rs and src/src/posix.rs, on the 64-bit target.
Machine `usize` arithmetic is `Nat` with explicit bounds; addresses are `Nat`. -/

/-- Largest `usize` value on the 64-bit target. -/
def USIZE_MAX : Nat := 2 ^ 64 - 1

/-- Modelled from the spec: the crate root defining the platform minimum alignment
`MIN_ALIGN` is not under src/; spec section 6 fixes it to 16 bytes on 64-bit targets. -/
def MIN_ALIGN : Nat := 16

/-- util::align_val_unchecked: rounds `val` up to a multiple of the power-of-two
`align`; the source bitmask form `(val + align - 1) AND NOT (align - 1)` is rendered
arithmetically as clearing the low bits of `val + align - 1`. -/
def align_val_unchecked (val align : Nat) : Nat :=
  (val + align - 1) - (val + align - 1) % align

/-- util::align_val: checked rounding, `Err` (here `none`) when `val > usize::MAX - align`. -/
def align_val (val align : Nat) : Option Nat :=
  if val > USIZE_MAX - align then none else some (align_val_unchecked val align)

/-- Modelled from the spec: `util::min_align_unchecked` of the current util.rs iteration is
not under src/; per spec section 4.A it rounds up to the platform minimum alignment. -/
def min_align_unchecked (val : Nat) : Nat := align_val_unchecked val MIN_ALIGN

/-- Modelled from the spec: `util::pad_min_align` of the current util.rs iteration is not
under src/; it pads a size up to `MIN_ALIGN`, failing on overflow. Only the size of the
resulting layout is kept in the model. -/
def pad_min_align (size : Nat) : Option Nat := align_val size MIN_ALIGN

/-- Modelled from the spec: `util::pad_to_align` of the current util.rs iteration is not
under src/; it pads a size up to the given power-of-two alignment (page rounding). -/
def pad_to_align (size align : Nat) : Option Nat := align_val size align

/-- Modelled from the spec: `util::pad_to_scalar` of the current util.rs iteration is not
under src/; it pads a size to the alignment of `libc::max_align_t`, 16 on the 64-bit target. -/
def pad_to_scalar (size : Nat) : Option Nat := align_val size 16

/-- `BLOCK_META_SIZE = min_align_unchecked(align_of::<usize>() * 2)`; `align_of::<usize>`
is 8 on the 64-bit target. -/
def BLOCK_META_SIZE : Nat := min_align_unchecked (8 * 2)

/-- `BLOCK_MIN_REGION_SIZE = min_align_unchecked(align_of::<Option<BlockPtr>>() * 2)`;
`Option<BlockPtr>` is a nullable pointer with alignment 8 on the 64-bit target. -/
def BLOCK_MIN_REGION_SIZE : Nat := min_align_unchecked (8 * 2)

/-- `BLOCK_SPLIT_MIN_SIZE = min_align_unchecked(BLOCK_META_SIZE + BLOCK_MIN_REGION_SIZE + MIN_ALIGN)`. -/
def BLOCK_SPLIT_MIN_SIZE : Nat :=
  min_align_unchecked (BLOCK_META_SIZE + BLOCK_MIN_REGION_SIZE + MIN_ALIGN)

/-- The free-block magic sentinel of src/src/alloc/block.rs. -/
def BLOCK_MAGIC_FREE : Nat := 0xDEAD

/-- The Block header of src/src/alloc/block.rs: payload size, magic, and the intrusive
links, the links stored as addresses of the neighbouring free blocks. -/
structure Block where
  size : Nat
  magic : Nat
  next : Option Nat
  prev : Option Nat
deriving DecidableEq, Repr

/-- Block::new. -/
def Block.new (size : Nat) : Block :=
  { size := size, next := none, prev := none, magic := BLOCK_MAGIC_FREE }

/-- Block::unlink. -/
def Block.unlink (b : Block) : Block := { b with next := none, prev := none }

/-- Block::verify. -/
def Block.verify (b : Block) : Bool := b.magic == BLOCK_MAGIC_FREE

/-- BlockPtr::shrink on the header at address `addr`: shrink in place to payload `size`;
on success returns the updated head header together with the address and the freshly
constructed header of the tail. -/
def BlockPtr.shrink (addr : Nat) (b : Block) (size : Nat) : Option (Block × Nat × Block) :=
  if b.size < size + BLOCK_META_SIZE then none
  else if b.size - (size + BLOCK_META_SIZE) < BLOCK_SPLIT_MIN_SIZE then none
  else some ({ b with size := size }, addr + BLOCK_META_SIZE + size,
             Block.new (b.size - (size + BLOCK_META_SIZE)))

/-- A free block viewed geometrically: header address and payload size. -/
structure Blk where
  addr : Nat
  size : Nat
deriving DecidableEq, Repr

/-- BlockPtr::block_size: the footprint of the block. -/
def Blk.footprint (b : Blk) : Nat := BLOCK_META_SIZE + b.size

/-- BlockPtr::next_potential_block: one past the end of the block. -/
def Blk.endAddr (b : Blk) : Nat := b.addr + BLOCK_META_SIZE + b.size

/-- BlockPtr::shrink, geometric view used by the facade model. -/
def Blk.shrink (b : Blk) (size : Nat) : Option (Blk × Blk) :=
  if b.size < size + BLOCK_META_SIZE then none
  else if b.size - (size + BLOCK_META_SIZE) < BLOCK_SPLIT_MIN_SIZE then none
  else some ({ b with size := size },
             { addr := b.addr + BLOCK_META_SIZE + size,
               size := b.size - (size + BLOCK_META_SIZE) })

/-- BlockPtr::maybe_merge_next, geometric: the survivor keeps the predecessor's address and
absorbs the successor's header and payload (only applied when exactly adjacent). -/
def mergeBlk (a b : Blk) : Blk := { addr := a.addr, size := a.size + BLOCK_META_SIZE + b.size }

/-- IntrusiveList::pop on the address-ordered flattening of the intrusive list: remove and
return the first block that either matches the size exactly or leaves at least
`BLOCK_SPLIT_MIN_SIZE` after a split. -/
def pop (L : List Blk) (size : Nat) : Option (Blk × List Blk) :=
  match L with
  | [] => none
  | b :: rest =>
    if size = b.size then some (b, rest)
    else if size + BLOCK_SPLIT_MIN_SIZE ≤ b.size then some (b, rest)
    else
      match pop rest size with
      | some (x, r) => some (x, b :: r)
      | none => none

/-- IntrusiveList::find_higher_block on the flattening: returns the scanned strictly lower
prefix and the remainder starting at the first block with a strictly higher address;
`Err` when a block with the identical address is met first (double free). -/
def find_higher_block (b : Blk) : List Blk → Except Unit (List Blk × List Blk)
  | [] => .ok ([], [])
  | x :: xs =>
    if b.addr < x.addr then .ok ([], x :: xs)
    else if x.addr = b.addr then .error ()
    else
      match find_higher_block b xs with
      | .ok (p, q) => .ok (x :: p, q)
      | .error e => .error e

/-- IntrusiveList::insert on the flattening: place by address order, then try to merge with
the adjacent predecessor and then with the adjacent successor. -/
def insert (L : List Blk) (b : Blk) : Except Unit (List Blk) :=
  match find_higher_block b L with
  | .error e => .error e
  | .ok (pre, post) =>
    let merged1 :=
      match pre.getLast? with
      | some p => if p.endAddr = b.addr then (pre.dropLast, mergeBlk p b) else (pre, b)
      | none => (pre, b)
    let merged2 :=
      match post.head? with
      | some nx =>
        if (merged1.2).endAddr = nx.addr then (mergeBlk merged1.2 nx, post.tail)
        else (merged1.2, post)
      | none => (merged1.2, post)
    .ok (merged1.1 ++ merged2.1 :: merged2.2)

/-- Combined allocator state: the flattened free list plus the HeapSegment memory source
fields, its accounted size and the current program break (top of the data segment). -/
structure HeapState where
  list : List Blk
  srcSize : Nat
  brk : Nat
deriving DecidableEq, Repr

/-- The page size read once at startup; 4096 on the modelled target. -/
def PAGE_SIZE : Nat := 4096

/-- HeapSegment::release: succeeds exactly when the block ends at the current break, in
which case the break and the accounted size shrink by the block's footprint. -/
def sourceRelease (s : HeapState) (b : Blk) : Bool × HeapState :=
  if b.endAddr ≠ s.brk then (false, s)
  else (true, { s with srcSize := s.srcSize - b.footprint, brk := s.brk - b.footprint })

/-- HeapSegment::request: sbrk success is assumed by the model, `none` arises only from
page-padding overflow; the new block spans the old break with a page-rounded footprint. -/
def sourceRequest (s : HeapState) (size : Nat) : Option (Blk × HeapState) :=
  match pad_to_align (BLOCK_META_SIZE + size) PAGE_SIZE with
  | none => none
  | some sz =>
    some ({ addr := s.brk, size := sz - BLOCK_META_SIZE },
          { s with srcSize := s.srcSize + sz, brk := s.brk + sz })

/-- HeapArena::request: first-fit from the list, else grow the source. -/
def arenaRequest (s : HeapState) (size : Nat) : Option (Blk × HeapState) :=
  match pop s.list size with
  | some (b, L2) => some (b, { s with list := L2 })
  | none => sourceRequest s size

/-- HeapArena::release: first offer the block to the source; only if the source declines is
it inserted into the free list; a detected double free is logged and leaves the flattened
state unchanged. -/
def arenaRelease (s : HeapState) (b : Blk) : HeapState :=
  match sourceRelease s b with
  | (true, s2) => s2
  | (false, s2) =>
    match insert s2.list b with
    | .ok L2 => { s2 with list := L2 }
    | .error _ => s2

/-- Collam::alloc: zero sizes and padding overflow give null; otherwise the clamped size is
requested from the arena, the acquired block is shrunk in place, and any split-off tail is
released back; returns the handed-out block, if any. -/
def collamAlloc (s : HeapState) (n : Nat) : Option Blk × HeapState :=
  if n = 0 then (none, s)
  else
    match pad_min_align n with
    | none => (none, s)
    | some padded =>
      match arenaRequest s (max padded BLOCK_MIN_REGION_SIZE) with
      | none => (none, s)
      | some (b, s1) =>
        match b.shrink (max padded BLOCK_MIN_REGION_SIZE) with
        | some (b2, rem) => (some b2, arenaRelease s1 rem)
        | none => (some b, s1)

/-- Collam::dealloc after the null and magic checks: the verified block is released back to
the arena. -/
def collamDealloc (s : HeapState) (b : Blk) : HeapState := arenaRelease s b

/-- Collam::realloc after the null and magic checks, on the old block `b`; returns the user
pointer of the resulting allocation, if any. Equal size returns the pointer unchanged; a
larger size allocates fresh, copies, and releases the old block; a smaller size shrinks in
place and releases any split-off tail. -/
def collamRealloc (s : HeapState) (b : Blk) (new_size : Nat) : Option Nat × HeapState :=
  match pad_min_align new_size with
  | none => (none, s)
  | some m =>
    if m = b.size then (some (b.addr + BLOCK_META_SIZE), s)
    else if b.size < m then
      match collamAlloc s m with
      | (res, s1) => (res.map (fun nb => nb.addr + BLOCK_META_SIZE), arenaRelease s1 b)
    else
      match b.shrink (max m BLOCK_MIN_REGION_SIZE) with
      | some (_, rem) => (some (b.addr + BLOCK_META_SIZE), arenaRelease s rem)
      | none => (some (b.addr + BLOCK_META_SIZE), s)

/-- Raw header memory for the pointer-level model of the intrusive list: an association of
header addresses to Block headers. -/
abbrev Mem := List (Nat × Block)

/-- Look up the header stored at an address. -/
def mlookup : Mem → Nat → Option Block
  | [], _ => none
  | (a, b) :: rest, x => if a = x then some b else mlookup rest x

/-- Store a header at an address (replacing the resident one, if any). -/
def mupdate : Mem → Nat → Block → Mem
  | [], x, nb => [(x, nb)]
  | (a, b) :: rest, x, nb => if a = x then (a, nb) :: rest else (a, b) :: mupdate rest x nb

/-- In-place mutation of the header at an address, a no-op when the address is unmapped. -/
def setLinks (m : Mem) (a : Nat) (f : Block → Block) : Mem :=
  match mlookup m a with
  | some b => mupdate m a (f b)
  | none => m

/-- The head and tail references of IntrusiveList at the pointer level. -/
structure ListEnds where
  head : Option Nat
  tail : Option Nat
deriving DecidableEq, Repr

/-- The Iter of src/src/alloc/list.rs as a fueled forward traversal along next links;
`none` when fuel is exhausted or a link dangles, else the list of visited addresses. -/
def iterChain (m : Mem) : Option Nat → Nat → Option (List Nat)
  | none, _ => some []
  | some _, 0 => none
  | some a, fuel + 1 =>
    match mlookup m a with
    | none => none
    | some b =>
      match iterChain m b.next fuel with
      | some rest => some (a :: rest)
      | none => none

/-- Finite acyclic well-formedness of the intrusive list: `chain` is exactly the sequence
of addresses reached from the given start by following next links to the end. -/
def chainFrom (m : Mem) : Option Nat → List Nat → Bool
  | none, [] => true
  | none, _ :: _ => false
  | some _, [] => false
  | some a, x :: rest =>
    a == x &&
      match mlookup m a with
      | some b => chainFrom m b.next rest
      | none => false

/-- The scan of IntrusiveList::pop at the pointer level (fueled): the address of the first
block that fits exactly or leaves room for a viable split, `some none` when the walk ends
without a fit, `none` when fuel runs out or a link dangles. -/
def popScan (m : Mem) (size : Nat) : Option Nat → Nat → Option (Option Nat)
  | none, _ => some none
  | some _, 0 => none
  | some a, fuel + 1 =>
    match mlookup m a with
    | none => none
    | some b =>
      if size = b.size then some (some a)
      else if size + BLOCK_SPLIT_MIN_SIZE ≤ b.size then some (some a)
      else popScan m size b.next fuel

/-- IntrusiveList::find_higher_block at the pointer level (fueled): the first address
strictly greater than the target, `Err` when the target itself is found resident. -/
def findHigherScan (m : Mem) (target : Nat) : Option Nat → Nat → Option (Except Unit (Option Nat))
  | none, _ => some (.ok none)
  | some _, 0 => none
  | some a, fuel + 1 =>
    if target < a then some (.ok (some a))
    else if a = target then some (.error ())
    else
      match mlookup m a with
      | none => none
      | some b => findHigherScan m target b.next fuel

/-- IntrusiveList::insert_before at the pointer level. -/
def insert_before (m : Mem) (anchor ti : Nat) : Mem :=
  let anchorPrev := (mlookup m anchor).bind (·.prev)
  let m1 := setLinks m ti (fun tb => { tb with prev := anchorPrev, next := some anchor })
  let m2 := setLinks m1 anchor (fun ab => { ab with prev := some ti })
  match anchorPrev with
  | some pv => setLinks m2 pv (fun pb => { pb with next := some ti })
  | none => m2

/-- IntrusiveList::insert_after at the pointer level. -/
def insert_after (m : Mem) (anchor ti : Nat) : Mem :=
  let anchorNext := (mlookup m anchor).bind (·.next)
  let m1 := setLinks m ti (fun tb => { tb with next := anchorNext, prev := some anchor })
  let m2 := setLinks m1 anchor (fun ab => { ab with next := some ti })
  match anchorNext with
  | some nx => setLinks m2 nx (fun nb => { nb with prev := some ti })
  | none => m2

/-- BlockPtr::maybe_merge_next at the pointer level: absorb the successor when it starts
exactly at the end of the block at `a`; the absorbed header's first BLOCK_META_SIZE bytes
(its size and magic, not the link words) are zeroed. Returns the memory when merged. -/
def maybe_merge_next (m : Mem) (a : Nat) : Option Mem :=
  match mlookup m a with
  | none => none
  | some b =>
    match b.next with
    | none => none
    | some nx =>
      if a + BLOCK_META_SIZE + b.size ≠ nx then none
      else
        match mlookup m nx with
        | none => none
        | some nb =>
          let m1 := setLinks m a (fun sb =>
            { sb with next := nb.next, size := sb.size + BLOCK_META_SIZE + nb.size })
          let m2 :=
            match nb.next with
            | some nn => setLinks m1 nn (fun nnb => { nnb with prev := some a })
            | none => m1
          some (setLinks m2 nx (fun ob => { ob with size := 0, magic := 0 }))

/-- IntrusiveList::maybe_merge_adjacent at the pointer level: let the predecessor absorb
the block if contiguous, then let the survivor absorb its successor; returns the surviving
address. -/
def maybe_merge_adjacent (m : Mem) (a : Nat) : Mem × Nat :=
  let first :=
    match (mlookup m a).bind (·.prev) with
    | some pv =>
      match maybe_merge_next m pv with
      | some m1 => (m1, pv)
      | none => (m, a)
    | none => (m, a)
  match maybe_merge_next first.1 first.2 with
  | some m2 => (m2, first.2)
  | none => first

/-- IntrusiveList::update_ends at the pointer level. -/
def update_ends (m : Mem) (e : ListEnds) (a : Nat) : ListEnds :=
  let e1 := if (mlookup m a).bind (·.prev) = none then { e with head := some a } else e
  if (mlookup m a).bind (·.next) = none then { e1 with tail := some a } else e1

/-- IntrusiveList::insert at the pointer level (fueled scan). The block's own links are
cleared first; an already-resident block is then detected by the address scan and reported
as a double free, the rest of the insertion being skipped. `none` when fuel runs out. -/
def insertPtr (m : Mem) (e : ListEnds) (a : Nat) (fuel : Nat) :
    Option (Except Unit Unit × Mem × ListEnds) :=
  let m1 := setLinks m a Block.unlink
  match e.head with
  | none => some (.ok (), m1, { head := some a, tail := some a })
  | some _ =>
    match findHigherScan m1 a e.head fuel with
    | none => none
    | some (.error _) => some (.error (), m1, e)
    | some (.ok anchor) =>
      let m2 :=
        match anchor with
        | some x => insert_before m1 x a
        | none =>
          match e.tail with
          | some t => insert_after m1 t a
          | none => m1
      let merged := maybe_merge_adjacent m2 a
      some (.ok (), merged.1, update_ends merged.1 e merged.2)

/-- usize::checked_mul on the 64-bit target. -/
def checked_mul (a b : Nat) : Option Nat :=
  if a * b ≤ USIZE_MAX then some (a * b) else none

/-- calloc of src/src/posix.rs: the Bool of the result records whether the overflow
diagnostic was printed; alloc_zeroed defers to Collam::alloc, the zero-fill having no
observable effect on the modelled state. -/
def calloc (s : HeapState) (nobj size : Nat) : Option Nat × HeapState × Bool :=
  match checked_mul nobj size with
  | none => (none, s, true)
  | some total =>
    match pad_to_scalar total with
    | none => (none, s, false)
    | some padded =>
      match collamAlloc s padded with
      | (res, s1) => (res.map (fun b => b.addr + BLOCK_META_SIZE), s1, false)

instance : DecidableEq (Except Unit Unit) := fun x y =>
  match x, y with
  | .ok (), .ok () => isTrue rfl
  | .error (), .error () => isTrue rfl
  | .ok (), .error () => isFalse (fun hh => Except.noConfusion hh)
  | .error (), .ok () => isFalse (fun hh => Except.noConfusion hh)

/-- The separation invariant of the free list (spec section 8, invariant 3): every block
ends strictly before the start of its successor. -/
def Separated (L : List Blk) : Prop :=
  List.Chain' (fun a b => a.endAddr < b.addr) L

/-- Two blocks occupy disjoint byte ranges (adjacency allowed). -/
def disj (a b : Blk) : Prop := a.endAddr ≤ b.addr ∨ b.endAddr ≤ a.addr

instance (a b : Blk) : Decidable (disj a b) :=
  inferInstanceAs (Decidable (a.endAddr ≤ b.addr ∨ b.endAddr ≤ a.addr))

/-- A block handed back to the allocator is fresh for the state: its bytes overlap no free
block of the list, and it lies below the current break. -/
def FreshFor (s : HeapState) (b : Blk) : Prop :=
  (∀ x ∈ s.list, disj b x) ∧ b.endAddr ≤ s.brk

instance (s : HeapState) (b : Blk) : Decidable (FreshFor s b) :=
  inferInstanceAs (Decidable ((∀ x ∈ s.list, disj b x) ∧ b.endAddr ≤ s.brk))

/-- The allocator state invariant: the free list is separated and lies below the break. -/
def Inv (s : HeapState) : Prop :=
  Separated s.list ∧ ∀ x ∈ s.list, x.endAddr ≤ s.brk

/-- The three mutating entry points of the Collam facade. -/
inductive AllocOp where
  | alloc (n : Nat)
  | dealloc (b : Blk)
  | realloc (b : Blk) (n : Nat)

/-- One allocator operation, viewed as a state transformer. -/
def step (s : HeapState) : AllocOp → HeapState
  | .alloc n => (collamAlloc s n).2
  | .dealloc b => collamDealloc s b
  | .realloc b n => (collamRealloc s b n).2

/-- Well-formed input for an operation: a block being given back must be fresh. -/
def opWF (s : HeapState) : AllocOp → Prop
  | .alloc _ => True
  | .dealloc b => FreshFor s b
  | .realloc b _ => FreshFor s b

instance (s : HeapState) (op : AllocOp) : Decidable (opWF s op) :=
  match op with
  | .alloc _ => inferInstanceAs (Decidable True)
  | .dealloc b => inferInstanceAs (Decidable (FreshFor s b))
  | .realloc b _ => inferInstanceAs (Decidable (FreshFor s b))

/-- Modelled from the spec: the deallocation order claimed by spec sections 2 and 4.E —
first insert the freed block into the list (coalescing with address-adjacent neighbours),
and only then ask the source whether to release the post-merge survivor, removing it from
the list when the source takes it. -/
def arenaReleaseSpec (s : HeapState) (b : Blk) : HeapState :=
  match insert s.list b with
  | .error _ => s
  | .ok L2 =>
    match L2.find? (fun y => decide (y.addr ≤ b.addr) && decide (b.addr < y.endAddr)) with
    | none => { s with list := L2 }
    | some y =>
      match sourceRelease { s with list := L2 } y with
      | (true, s2) => { s2 with list := s2.list.erase y }
      | (false, s2) => s2

/-! Arithmetic facts about the alignment utilities. -/

theorem le_align_val_unchecked (val align : Nat) (h : 0 < align) :
    val ≤ align_val_unchecked val align := by
  unfold align_val_unchecked
  have hm : (val + align - 1) % align < align := Nat.mod_lt _ h
  omega

theorem dvd_align_val_unchecked (val align : Nat) :
    align ∣ align_val_unchecked val align := by
  unfold align_val_unchecked
  have hd := Nat.div_add_mod (val + align - 1) align
  exact ⟨(val + align - 1) / align, by omega⟩

theorem align_val_unchecked_le (val align m : Nat) (ha : 0 < align)
    (hm : align ∣ m) (h : val ≤ m) : align_val_unchecked val align ≤ m := by
  obtain ⟨k, rfl⟩ := hm
  unfold align_val_unchecked
  have hd := Nat.div_add_mod (val + align - 1) align
  have hq : (val + align - 1) / align ≤ k :=
    (Nat.div_le_iff_le_mul_add_pred ha).2 (by omega)
  have hmul : align * ((val + align - 1) / align) ≤ align * k :=
    Nat.mul_le_mul_left _ hq
  omega

theorem align_val_unchecked_of_dvd (val align : Nat) (ha : 0 < align) (h : align ∣ val) :
    align_val_unchecked val align = val :=
  Nat.le_antisymm (align_val_unchecked_le val align val ha h le_rfl)
    (le_align_val_unchecked val align ha)

theorem pad_min_align_eq (n : Nat) (h : n ≤ USIZE_MAX - MIN_ALIGN) :
    pad_min_align n = some (min_align_unchecked n) := by
  unfold pad_min_align align_val min_align_unchecked
  rw [if_neg (by omega)]

/-! C2: BlockPtr::shrink. -/

/-- C2 counterexample: the claim's split criterion uses the smallest link-holding payload
(BLOCK_MIN_REGION_SIZE, 16 bytes); a free block of payload 48 satisfies it for n = 16, yet
the code refuses to split because the remainder 16 is below BLOCK_SPLIT_MIN_SIZE = 48. -/
theorem shrink_min_split_cex :
    16 + BLOCK_META_SIZE + BLOCK_MIN_REGION_SIZE ≤ (Block.new 48).size ∧
    MIN_ALIGN ∣ 16 ∧
    BlockPtr.shrink 0 (Block.new 48) 16 = none := by decide

/-- C2 (amended): for an alignment-multiple n, shrink splits and returns a tail block iff
`n + BLOCK_META_SIZE + BLOCK_SPLIT_MIN_SIZE ≤ size`, BLOCK_SPLIT_MIN_SIZE being the padded
sum of header, minimum link-holding payload and one extra MIN_ALIGN of slack (48, not the
bare link-holding minimum of 16); on success the head keeps exactly n bytes of payload,
the two footprints add up to the original footprint, and the tail is a freshly constructed
free block placed right after the head (magic set, links clear). -/
theorem shrink_spec (addr n : Nat) (b : Block) (hn : MIN_ALIGN ∣ n) :
    ((BlockPtr.shrink addr b n).isSome ↔ n + BLOCK_META_SIZE + BLOCK_SPLIT_MIN_SIZE ≤ b.size) ∧
    (∀ hd ta tb, BlockPtr.shrink addr b n = some (hd, ta, tb) →
      hd.size = n ∧ hd.magic = b.magic ∧ hd.next = b.next ∧ hd.prev = b.prev ∧
      (BLOCK_META_SIZE + hd.size) + (BLOCK_META_SIZE + tb.size) = BLOCK_META_SIZE + b.size ∧
      ta = addr + BLOCK_META_SIZE + n ∧
      tb.magic = BLOCK_MAGIC_FREE ∧ tb.next = none ∧ tb.prev = none) := by
  have hM : BLOCK_META_SIZE = 16 := by decide
  have hS : BLOCK_SPLIT_MIN_SIZE = 48 := by decide
  constructor
  · unfold BlockPtr.shrink
    split_ifs with h1 h2 <;>
      simp only [Option.isSome_none, Option.isSome_some, Bool.false_eq_true, false_iff,
        true_iff, not_le] <;>
      omega
  · intro hd ta tb hsome
    unfold BlockPtr.shrink at hsome
    split_ifs at hsome with h1 h2
    simp only [Option.some.injEq, Prod.mk.injEq] at hsome
    obtain ⟨rfl, rfl, rfl⟩ := hsome
    refine ⟨rfl, rfl, rfl, rfl, ?_, rfl, rfl, rfl, rfl⟩
    simp only [Block.new]
    omega

/-- C2 witness: a block of payload 80 splits at n = 16. -/
theorem shrink_spec_witness :
    ((BlockPtr.shrink 0 (Block.new 80) 16).isSome ↔
      16 + BLOCK_META_SIZE + BLOCK_SPLIT_MIN_SIZE ≤ (Block.new 80).size) ∧
    (∀ hd ta tb, BlockPtr.shrink 0 (Block.new 80) 16 = some (hd, ta, tb) →
      hd.size = 16 ∧ hd.magic = (Block.new 80).magic ∧ hd.next = (Block.new 80).next ∧
      hd.prev = (Block.new 80).prev ∧
      (BLOCK_META_SIZE + hd.size) + (BLOCK_META_SIZE + tb.size) =
        BLOCK_META_SIZE + (Block.new 80).size ∧
      ta = 0 + BLOCK_META_SIZE + 16 ∧
      tb.magic = BLOCK_MAGIC_FREE ∧ tb.next = none ∧ tb.prev = none) :=
  shrink_spec 0 16 (Block.new 80) (by decide)

/-! C3: IntrusiveList::pop. -/

/-- C3 counterexample: a single free block of payload 48 satisfies the claim's second
criterion for need 16 (48 is at least 16 plus the link-holding minimum of 16 bytes), yet
pop skips it and returns absence, because the code requires need + BLOCK_SPLIT_MIN_SIZE. -/
theorem pop_min_link_payload_cex :
    (16 = (48 : Nat) ∨ 16 + BLOCK_MIN_REGION_SIZE ≤ 48) ∧
    pop [⟨0, 48⟩] 16 = none := by decide

/-- C3 (amended): pop removes and returns the first listed block whose payload matches the
requested size exactly or is at least the request plus BLOCK_SPLIT_MIN_SIZE (48, the
padded header + link minimum + alignment slack, not the bare link-holding minimum of 16);
the blocks scanned before it are kept, in order, and when no block qualifies pop returns
absence leaving the list unchanged. -/
theorem pop_first_fit (L : List Blk) (n : Nat) :
    (pop L n = none ↔ ∀ x ∈ L, ¬(n = x.size ∨ n + BLOCK_SPLIT_MIN_SIZE ≤ x.size)) ∧
    (∀ b L2, pop L n = some (b, L2) →
      (n = b.size ∨ n + BLOCK_SPLIT_MIN_SIZE ≤ b.size) ∧
      ∃ pre post, L = pre ++ b :: post ∧ L2 = pre ++ post ∧
        ∀ x ∈ pre, ¬(n = x.size ∨ n + BLOCK_SPLIT_MIN_SIZE ≤ x.size)) := by
  induction L with
  | nil =>
    refine ⟨by simp [pop], ?_⟩
    intro b L2 h
    simp [pop] at h
  | cons c rest ih =>
    by_cases h1 : n = c.size
    · have hp : pop (c :: rest) n = some (c, rest) := by simp [pop, h1]
      refine ⟨⟨fun h => absurd (hp ▸ h) (by simp), ?_⟩, ?_⟩
      · intro hall
        exact absurd (Or.inl h1) (hall c (List.mem_cons_self c rest))
      · intro b L2 h
        rw [hp] at h
        obtain ⟨rfl, rfl⟩ : c = b ∧ rest = L2 := by simpa using h
        exact ⟨Or.inl h1, [], rest, rfl, rfl, by simp⟩
    · by_cases h2 : n + BLOCK_SPLIT_MIN_SIZE ≤ c.size
      · have hp : pop (c :: rest) n = some (c, rest) := by simp [pop, h1, h2]
        refine ⟨⟨fun h => absurd (hp ▸ h) (by simp), ?_⟩, ?_⟩
        · intro hall
          exact absurd (Or.inr h2) (hall c (List.mem_cons_self c rest))
        · intro b L2 h
          rw [hp] at h
          obtain ⟨rfl, rfl⟩ : c = b ∧ rest = L2 := by simpa using h
          exact ⟨Or.inr h2, [], rest, rfl, rfl, by simp⟩
      · have hcfail : ¬(n = c.size ∨ n + BLOCK_SPLIT_MIN_SIZE ≤ c.size) := by
          push_neg
          exact ⟨h1, by omega⟩
        cases hrest : pop rest n with
        | none =>
          have hp : pop (c :: rest) n = none := by simp [pop, h1, h2, hrest]
          refine ⟨⟨fun _ => ?_, fun _ => hp⟩, ?_⟩
          · intro x hx
            rcases List.mem_cons.1 hx with rfl | hx2
            · exact hcfail
            · exact (ih.1.1 hrest) x hx2
          · intro b L2 h
            rw [hp] at h
            cases h
        | some bl =>
          obtain ⟨x, r⟩ := bl
          have hp : pop (c :: rest) n = some (x, c :: r) := by simp [pop, h1, h2, hrest]
          refine ⟨⟨fun h => absurd (hp ▸ h) (by simp), ?_⟩, ?_⟩
          · intro hall
            have := ih.1.2 (fun y hy => hall y (List.mem_cons_of_mem c hy))
            rw [this] at hrest
            cases hrest
          · intro b L2 h
            rw [hp] at h
            have hbx : x = b ∧ c :: r = L2 := by simpa using h
            obtain ⟨hbx1, hbx2⟩ := hbx
            subst hbx1
            subst hbx2
            obtain ⟨hcond, pre, post, hrest1, hrest2, hprefail⟩ := ih.2 x r hrest
            refine ⟨hcond, c :: pre, post, by simp [hrest1], by simp [hrest2], ?_⟩
            intro y hy
            rcases List.mem_cons.1 hy with rfl | hy2
            · exact hcfail
            · exact hprefail y hy2

/-- C3 witness: a block of payload 64 is returned for need 16, leaving the other block. -/
theorem pop_first_fit_witness :
    (16 = (⟨0, 64⟩ : Blk).size ∨ 16 + BLOCK_SPLIT_MIN_SIZE ≤ (⟨0, 64⟩ : Blk).size) ∧
    ∃ pre post, [⟨0, 64⟩, ⟨200, 16⟩] = pre ++ (⟨0, 64⟩ : Blk) :: post ∧
      ([⟨200, 16⟩] : List Blk) = pre ++ post ∧
      ∀ x ∈ pre, ¬(16 = x.size ∨ 16 + BLOCK_SPLIT_MIN_SIZE ≤ x.size) :=
  (pop_first_fit [⟨0, 64⟩, ⟨200, 16⟩] 16).2 ⟨0, 64⟩ [⟨200, 16⟩] (by decide)

/-! C5: HeapSegment::release. -/

/-- C5: the source's release returns true and shrinks the backing region (break and
accounted size) by exactly the block's footprint when the block ends at the current break,
and returns false leaving the state untouched otherwise. -/
theorem sourceRelease_spec (s : HeapState) (b : Blk) :
    (b.endAddr = s.brk →
      sourceRelease s b =
        (true, { list := s.list, srcSize := s.srcSize - b.footprint,
                 brk := s.brk - b.footprint })) ∧
    (b.endAddr ≠ s.brk → sourceRelease s b = (false, s)) := by
  unfold sourceRelease
  constructor
  · intro h
    rw [if_neg (not_not_intro h)]
  · intro h
    rw [if_pos h]

/-- C5 witness: a topmost block is taken and the break retreats by its footprint; a
non-topmost block is declined without any change. -/
theorem sourceRelease_spec_witness :
    sourceRelease ⟨[], 64, 164⟩ ⟨100, 48⟩ =
      (true, { list := [], srcSize := 64 - Blk.footprint ⟨100, 48⟩,
               brk := 164 - Blk.footprint ⟨100, 48⟩ }) ∧
    sourceRelease ⟨[], 64, 200⟩ ⟨100, 48⟩ = (false, ⟨[], 64, 200⟩) :=
  ⟨(sourceRelease_spec ⟨[], 64, 164⟩ ⟨100, 48⟩).1 (by decide),
   (sourceRelease_spec ⟨[], 64, 200⟩ ⟨100, 48⟩).2 (by decide)⟩

/-! C7: Collam::realloc never moves a shrinking or size-preserving reallocation. -/

/-- C7: for a verified block whose footprint fits in the address space and whose payload is
an alignment multiple, realloc to any size not exceeding the payload (the usable size)
returns the original user pointer: the equal-size case returns it unchanged and the
smaller-size case shrinks in place. -/
theorem realloc_no_move (s : HeapState) (b : Blk) (n : Nat)
    (hal : MIN_ALIGN ∣ b.size) (hfit : BLOCK_META_SIZE + b.size ≤ USIZE_MAX)
    (hle : n ≤ b.size) :
    (collamRealloc s b n).1 = some (b.addr + BLOCK_META_SIZE) := by
  have hM : MIN_ALIGN = 16 := by decide
  have hpad : pad_min_align n = some (min_align_unchecked n) := by
    apply pad_min_align_eq
    obtain ⟨k, hk⟩ := hal
    have hU : USIZE_MAX = 2 ^ 64 - 1 := by norm_num [USIZE_MAX]
    have hMM : BLOCK_META_SIZE = 16 := by decide
    omega
  have hm_le : min_align_unchecked n ≤ b.size := by
    unfold min_align_unchecked
    exact align_val_unchecked_le n MIN_ALIGN b.size (by decide) hal hle
  simp only [collamRealloc, hpad]
  by_cases he : min_align_unchecked n = b.size
  · simp [he]
  · rw [if_neg he, if_neg (by omega)]
    cases hs : Blk.shrink b (max (min_align_unchecked n) BLOCK_MIN_REGION_SIZE) with
    | none => simp [hs]
    | some p =>
      obtain ⟨p1, p2⟩ := p
      simp [hs]

/-- C7 witness: shrinking a 64-byte block to 30 bytes keeps the user pointer. -/
theorem realloc_no_move_witness :
    (collamRealloc ⟨[], 0, 0⟩ ⟨100, 64⟩ 30).1 = some (100 + BLOCK_META_SIZE) :=
  realloc_no_move ⟨[], 0, 0⟩ ⟨100, 64⟩ 30 (by decide) (by decide) (by decide)

/-! C8: calloc overflow handling. -/

/-- C8: when the product of the counts overflows usize, calloc prints the overflow
diagnostic and returns null, leaving the allocator state untouched; the modelled entry
point is a total function, so no abort or unwind happens on this input. -/
theorem calloc_overflow_null (s : HeapState) (a b : Nat) (h : USIZE_MAX < a * b) :
    calloc s a b = (none, s, true) := by
  unfold calloc checked_mul
  rw [if_neg (by omega)]

/-- C8 witness: calloc of two huge counts returns null with the diagnostic. -/
theorem calloc_overflow_null_witness :
    calloc ⟨[], 0, 0⟩ (2 ^ 32) (2 ^ 32) = (none, ⟨[], 0, 0⟩, true) :=
  calloc_overflow_null ⟨[], 0, 0⟩ (2 ^ 32) (2 ^ 32) (by norm_num [USIZE_MAX])

/-! Pointer-level groundwork for C9 and C4. -/

theorem mlookup_mupdate_ne (m : Mem) (k x : Nat) (v : Block) (h : x ≠ k) :
    mlookup (mupdate m k v) x = mlookup m x := by
  induction m with
  | nil =>
    simp only [mupdate, mlookup]
    rw [if_neg (fun hh => h hh.symm)]
  | cons p rest ih =>
    obtain ⟨a, b⟩ := p
    simp only [mupdate]
    by_cases hak : a = k
    · subst hak
      simp only [if_pos rfl, mlookup]
      rw [if_neg (fun hh => h hh.symm), if_neg (fun hh => h hh.symm)]
    · rw [if_neg hak]
      simp only [mlookup]
      by_cases hax : a = x
      · rw [if_pos hax, if_pos hax]
      · rw [if_neg hax, if_neg hax, ih]

theorem chainFrom_lookup (m : Mem) (h : Option Nat) (c : List Nat)
    (hc : chainFrom m h c = true) : ∀ x ∈ c, ∃ b, mlookup m x = some b := by
  induction c generalizing h with
  | nil => intro x hx; cases hx
  | cons a rest ih =>
    cases h with
    | none => simp [chainFrom] at hc
    | some a0 =>
      simp only [chainFrom, Bool.and_eq_true, beq_iff_eq] at hc
      obtain ⟨rfl, hc2⟩ := hc
      cases hl : mlookup m a0 with
      | none => rw [hl] at hc2; simp at hc2
      | some b =>
        rw [hl] at hc2
        intro x hx
        rcases List.mem_cons.1 hx with rfl | hx2
        · exact ⟨b, hl⟩
        · exact ih b.next hc2 x hx2

theorem findHigherScan_hits (m m1 : Mem) (a : Nat) (c : List Nat) (h : Option Nat)
    (fuel : Nat) (hc : chainFrom m h c = true) (hpw : List.Pairwise (· < ·) c)
    (hmem : a ∈ c) (hm1 : ∀ x, x ≠ a → mlookup m1 x = mlookup m x)
    (hf : c.length ≤ fuel) :
    findHigherScan m1 a h fuel = some (.error ()) := by
  induction c generalizing h fuel with
  | nil => cases hmem
  | cons x rest ih =>
    cases h with
    | none => simp [chainFrom] at hc
    | some a0 =>
      simp only [chainFrom, Bool.and_eq_true, beq_iff_eq] at hc
      obtain ⟨rfl, hc2⟩ := hc
      cases fuel with
      | zero => simp at hf
      | succ f =>
        rcases List.mem_cons.1 hmem with rfl | hmem2
        · simp only [findHigherScan]
          rw [if_neg (by omega)]
          simp
        · have ha0a : a0 < a := (List.pairwise_cons.1 hpw).1 a hmem2
          cases hl : mlookup m a0 with
          | none => rw [hl] at hc2; simp at hc2
          | some b =>
            rw [hl] at hc2
            simp only [findHigherScan]
            rw [if_neg (by omega), if_neg (by omega), hm1 a0 (by omega), hl]
            exact ih b.next f hc2 (List.pairwise_cons.1 hpw).2 hmem2 (by simpa using hf)

/-! C9: termination of the list walks. -/

/-- C9: on a finite acyclic list state (a chain of addresses reachable from the start),
every fueled walk of the free list finishes as soon as the fuel reaches the chain length:
forward iteration returns exactly the chain, and the scans of pop and find_higher_block
both reach a verdict instead of running out of fuel. -/
theorem list_walk_terminates (m : Mem) (h : Option Nat) (c : List Nat) (sz tgt fuel : Nat)
    (hc : chainFrom m h c = true) (hf : c.length ≤ fuel) :
    iterChain m h fuel = some c ∧
    (popScan m sz h fuel).isSome = true ∧
    (findHigherScan m tgt h fuel).isSome = true := by
  induction c generalizing h fuel with
  | nil =>
    cases h with
    | none => exact ⟨by simp [iterChain], by simp [popScan], by simp [findHigherScan]⟩
    | some a => simp [chainFrom] at hc
  | cons a rest ih =>
    cases h with
    | none => simp [chainFrom] at hc
    | some a0 =>
      simp only [chainFrom, Bool.and_eq_true, beq_iff_eq] at hc
      obtain ⟨rfl, hc2⟩ := hc
      cases fuel with
      | zero => simp at hf
      | succ f =>
        cases hl : mlookup m a0 with
        | none => rw [hl] at hc2; simp at hc2
        | some b =>
          rw [hl] at hc2
          have hrec := ih b.next f hc2 (by simpa using hf)
          refine ⟨?_, ?_, ?_⟩
          · simp only [iterChain, hl, hrec.1]
          · simp only [popScan, hl]
            split_ifs <;> simp [hrec.2.1]
          · simp only [findHigherScan]
            split_ifs <;> simp only [Option.isSome_some, hl, hrec.2.2]

/-- C9 witness: on a concrete two-block list, fuel 5 suffices for all three walks. -/
theorem list_walk_terminates_witness :
    iterChain
        [(100, ⟨16, BLOCK_MAGIC_FREE, some 200, none⟩),
         (200, ⟨16, BLOCK_MAGIC_FREE, none, some 100⟩)] (some 100) 5 = some [100, 200] ∧
    (popScan
        [(100, ⟨16, BLOCK_MAGIC_FREE, some 200, none⟩),
         (200, ⟨16, BLOCK_MAGIC_FREE, none, some 100⟩)] 16 (some 100) 5).isSome = true ∧
    (findHigherScan
        [(100, ⟨16, BLOCK_MAGIC_FREE, some 200, none⟩),
         (200, ⟨16, BLOCK_MAGIC_FREE, none, some 100⟩)] 150 (some 100) 5).isSome = true :=
  list_walk_terminates _ (some 100) [100, 200] 16 150 5 (by decide) (by decide)

/-! C4: double free detection in IntrusiveList::insert. -/

/-- C4 counterexample: inserting the address 200 while its block is already resident in the
two-block list is detected and reported as a double free, but the detection happens only
after the resident block's own links have been unconditionally cleared, so the list is not
left exactly as it was: the resident block's prev link to 100 is gone. -/
theorem insert_double_free_cex :
    insertPtr
        [(100, ⟨16, BLOCK_MAGIC_FREE, some 200, none⟩),
         (200, ⟨16, BLOCK_MAGIC_FREE, none, some 100⟩)]
        ⟨some 100, some 200⟩ 200 10 =
      some (.error (),
        [(100, ⟨16, BLOCK_MAGIC_FREE, some 200, none⟩),
         (200, ⟨16, BLOCK_MAGIC_FREE, none, none⟩)],
        ⟨some 100, some 200⟩) ∧
    ([(100, (⟨16, BLOCK_MAGIC_FREE, some 200, none⟩ : Block)),
      (200, ⟨16, BLOCK_MAGIC_FREE, none, some 100⟩)] : Mem) ≠
      [(100, ⟨16, BLOCK_MAGIC_FREE, some 200, none⟩),
       (200, ⟨16, BLOCK_MAGIC_FREE, none, none⟩)] :=
  ⟨by decide, by decide⟩

/-- C4 (amended): inserting a block already resident in a well-formed address-sorted list
is detected by the scan and reported as an error before any insertion splicing happens,
and the head and tail are unchanged; however the resident block's own prev and next links
have already been cleared by the unconditional unlink at entry, so the memory is the
original with exactly that one header unlinked, not untouched. -/
theorem insert_double_free (m : Mem) (e : ListEnds) (a : Nat) (c : List Nat) (fuel : Nat)
    (hc : chainFrom m e.head c = true) (hpw : List.Pairwise (· < ·) c)
    (hmem : a ∈ c) (hf : c.length ≤ fuel) :
    ∃ blk, mlookup m a = some blk ∧
      insertPtr m e a fuel = some (.error (), mupdate m a blk.unlink, e) := by
  obtain ⟨blk, hblk⟩ := chainFrom_lookup m e.head c hc a hmem
  refine ⟨blk, hblk, ?_⟩
  have hm1 : setLinks m a Block.unlink = mupdate m a blk.unlink := by
    unfold setLinks
    rw [hblk]
  cases hhead : e.head with
  | none =>
    rw [hhead] at hc
    cases c with
    | nil => cases hmem
    | cons y ys => simp [chainFrom] at hc
  | some h0 =>
    rw [hhead] at hc
    have hscan :=
      findHigherScan_hits m (mupdate m a blk.unlink) a c (some h0) fuel hc hpw hmem
        (fun x hx => mlookup_mupdate_ne m a x blk.unlink hx) hf
    unfold insertPtr
    simp only [hm1, hhead, hscan]

/-- C4 witness: the general double-free theorem applied to the concrete two-block list. -/
theorem insert_double_free_witness :
    ∃ blk,
      mlookup
          [(100, ⟨16, BLOCK_MAGIC_FREE, some 200, none⟩),
           (200, ⟨16, BLOCK_MAGIC_FREE, none, some 100⟩)] 200 = some blk ∧
      insertPtr
          [(100, ⟨16, BLOCK_MAGIC_FREE, some 200, none⟩),
           (200, ⟨16, BLOCK_MAGIC_FREE, none, some 100⟩)]
          ⟨some 100, some 200⟩ 200 10 =
        some (.error (),
          mupdate
            [(100, ⟨16, BLOCK_MAGIC_FREE, some 200, none⟩),
             (200, ⟨16, BLOCK_MAGIC_FREE, none, some 100⟩)] 200 blk.unlink,
          ⟨some 100, some 200⟩) :=
  insert_double_free _ ⟨some 100, some 200⟩ 200 [100, 200] 10 (by decide)
    (by simp) (by decide) (by decide)

/-! Geometry and separation groundwork for C1, C6 and C10. -/

theorem Blk.addr_lt_endAddr (b : Blk) : b.addr < b.endAddr := by
  have hM : BLOCK_META_SIZE = 16 := by decide
  unfold Blk.endAddr
  omega

theorem mergeBlk_addr (p b : Blk) : (mergeBlk p b).addr = p.addr := rfl

theorem mergeBlk_endAddr (p b : Blk) (h : p.endAddr = b.addr) :
    (mergeBlk p b).endAddr = b.endAddr := by
  unfold Blk.endAddr mergeBlk at *
  simp only at *
  omega

theorem disj_sub {c b r : Blk} (h : disj c b) (h1 : b.addr ≤ r.addr)
    (h2 : r.endAddr ≤ b.endAddr) : disj c r := by
  unfold disj at h ⊢
  unfold Blk.endAddr at *
  omega

theorem disj_merge {c p b : Blk} (adj : p.endAddr = b.addr) (h1 : disj c p)
    (h2 : disj c b) : disj c (mergeBlk p b) := by
  have hc := Blk.addr_lt_endAddr c
  have hp := Blk.addr_lt_endAddr p
  unfold disj mergeBlk at *
  unfold Blk.endAddr at *
  simp only at *
  omega

theorem sep_cons_all {a : Blk} {L : List Blk} (h : Separated (a :: L)) :
    ∀ b ∈ L, a.endAddr < b.addr := by
  induction L generalizing a with
  | nil => intro b hb; exact absurd hb (List.not_mem_nil b)
  | cons c rest ih =>
    have h2 : a.endAddr < c.addr ∧ Separated (c :: rest) := by
      unfold Separated at h ⊢
      rw [List.chain'_cons] at h
      exact h
    intro b hb
    rcases List.mem_cons.1 hb with rfl | hb2
    · exact h2.1
    · have hcb := ih h2.2 b hb2
      have := Blk.addr_lt_endAddr c
      omega

theorem Separated.tail_sep {a : Blk} {L : List Blk} (h : Separated (a :: L)) :
    Separated L := by
  unfold Separated at h ⊢
  exact (List.chain'_cons'.1 h).2

theorem Separated.pw {L : List Blk} (h : Separated L) :
    L.Pairwise (fun a b => a.endAddr < b.addr) := by
  induction L with
  | nil => exact List.Pairwise.nil
  | cons a rest ih => exact List.Pairwise.cons (sep_cons_all h) (ih h.tail_sep)

theorem pairwise_sep {L : List Blk}
    (h : L.Pairwise (fun a b => a.endAddr < b.addr)) : Separated L :=
  List.Pairwise.chain' h

theorem sep_remove {pre post : List Blk} {b : Blk} (h : Separated (pre ++ b :: post)) :
    Separated (pre ++ post) ∧ ∀ x ∈ pre ++ post, disj b x := by
  have hp := h.pw
  rw [List.pairwise_append] at hp
  obtain ⟨hpre, hbpost, hcross⟩ := hp
  rw [List.pairwise_cons] at hbpost
  obtain ⟨hbAll, hpost⟩ := hbpost
  constructor
  · apply pairwise_sep
    rw [List.pairwise_append]
    exact ⟨hpre, hpost, fun x hx y hy => hcross x hx y (List.mem_cons_of_mem b hy)⟩
  · intro x hx
    rcases List.mem_append.1 hx with hx1 | hx2
    · exact Or.inr (le_of_lt (hcross x hx1 b (List.mem_cons_self b post)))
    · exact Or.inl (le_of_lt (hbAll x hx2))

theorem find_higher_block_spec (b : Blk) (L : List Blk)
    (hne : ∀ x ∈ L, x.addr ≠ b.addr) :
    ∃ pre post, find_higher_block b L = .ok (pre, post) ∧ L = pre ++ post ∧
      (∀ x ∈ pre, x.addr < b.addr) ∧ ∀ y ∈ post.head?, b.addr < y.addr := by
  induction L with
  | nil => exact ⟨[], [], rfl, rfl, by simp, by simp⟩
  | cons x xs ih =>
    by_cases h1 : b.addr < x.addr
    · refine ⟨[], x :: xs, ?_, rfl, by simp, ?_⟩
      · unfold find_higher_block
        rw [if_pos h1]
      · intro y hy
        simp only [List.head?_cons, Option.mem_def, Option.some.injEq] at hy
        subst hy
        exact h1
    · have hx : x.addr < b.addr := by
        have := hne x (List.mem_cons_self x xs)
        omega
      obtain ⟨pre, post, hfb, hsplit, hpre, hpost⟩ :=
        ih (fun y hy => hne y (List.mem_cons_of_mem x hy))
      refine ⟨x :: pre, post, ?_, by rw [List.cons_append, ← hsplit], ?_, hpost⟩
      · unfold find_higher_block
        rw [if_neg h1, if_neg (hne x (List.mem_cons_self x xs)), hfb]
      · intro y hy
        rcases List.mem_cons.1 hy with rfl | hy2
        · exact hx
        · exact hpre y hy2

theorem insert_result_props (U preX postX : List Blk) (m b : Blk)
    (hsub1 : ∀ x ∈ preX, x ∈ U) (hsub2 : ∀ x ∈ postX, x ∈ U)
    (hsepPreX : Separated preX) (hsepPostX : Separated postX)
    (hgap1 : ∀ x ∈ preX, x.endAddr < m.addr)
    (hgap2 : ∀ y ∈ postX.head?, m.endAddr < y.addr)
    (hmaddr : m.addr ≤ b.addr) (hmend : b.endAddr ≤ m.endAddr)
    (hdisjm : ∀ c, (∀ x ∈ U, disj c x) → disj c b → disj c m)
    (hboundm : ∀ B, (∀ x ∈ U, x.endAddr ≤ B) → b.endAddr ≤ B → m.endAddr ≤ B) :
    Separated (preX ++ m :: postX) ∧
    (∃ y ∈ preX ++ m :: postX, y.addr ≤ b.addr ∧ b.endAddr ≤ y.endAddr) ∧
    (∀ c, (∀ x ∈ U, disj c x) → disj c b → ∀ y ∈ preX ++ m :: postX, disj c y) ∧
    (∀ B, (∀ x ∈ U, x.endAddr ≤ B) → b.endAddr ≤ B →
      ∀ y ∈ preX ++ m :: postX, y.endAddr ≤ B) := by
  refine ⟨?_, ⟨m, List.mem_append_right _ (List.mem_cons_self m postX), hmaddr, hmend⟩,
    ?_, ?_⟩
  · unfold Separated
    rw [List.chain'_append]
    refine ⟨hsepPreX, List.chain'_cons'.2 ⟨fun y hy => hgap2 y hy, hsepPostX⟩, ?_⟩
    intro x hx y hy
    simp only [List.head?_cons, Option.mem_def, Option.some.injEq] at hy
    subst hy
    exact hgap1 x (List.mem_of_mem_getLast? hx)
  · intro c hc hcb y hy
    rcases List.mem_append.1 hy with hy1 | hy2
    · exact hc y (hsub1 y hy1)
    · rcases List.mem_cons.1 hy2 with rfl | hy3
      · exact hdisjm c hc hcb
      · exact hc y (hsub2 y hy3)
  · intro B hB hbB y hy
    rcases List.mem_append.1 hy with hy1 | hy2
    · exact hB y (hsub1 y hy1)
    · rcases List.mem_cons.1 hy2 with rfl | hy3
      · exact hboundm B hB hbB
      · exact hB y (hsub2 y hy3)

theorem insert_sep (L : List Blk) (b : Blk) (hs : Separated L)
    (hd : ∀ x ∈ L, disj b x) :
    ∃ L2, Collam.insert L b = .ok L2 ∧ Separated L2 ∧
      (∃ y ∈ L2, y.addr ≤ b.addr ∧ b.endAddr ≤ y.endAddr) ∧
      (∀ c, (∀ x ∈ L, disj c x) → disj c b → ∀ y ∈ L2, disj c y) ∧
      (∀ B, (∀ x ∈ L, x.endAddr ≤ B) → b.endAddr ≤ B → ∀ y ∈ L2, y.endAddr ≤ B) := by
  have hbb := Blk.addr_lt_endAddr b
  have hne : ∀ x ∈ L, x.addr ≠ b.addr := by
    intro x hx heq
    have hxx := Blk.addr_lt_endAddr x
    rcases hd x hx with h | h <;> omega
  obtain ⟨pre, post, hfb, hsplitL, hpre, hposthd⟩ := find_higher_block_spec b L hne
  subst hsplitL
  have hpw := hs.pw
  rw [List.pairwise_append] at hpw
  obtain ⟨hpwPre, hpwPost, hcross⟩ := hpw
  have hsepPre : Separated pre := pairwise_sep hpwPre
  have hsepPost : Separated post := pairwise_sep hpwPost
  have hpreEnd : ∀ x ∈ pre, x.endAddr ≤ b.addr := by
    intro x hx
    have hxa := hpre x hx
    have hxx := Blk.addr_lt_endAddr x
    rcases hd x (List.mem_append_left _ hx) with h | h <;> omega
  have hpostGt : ∀ y ∈ post, b.addr < y.addr := by
    intro y hy
    cases post with
    | nil => cases hy
    | cons nx post1 =>
      have hnx : b.addr < nx.addr := hposthd nx rfl
      rcases List.mem_cons.1 hy with rfl | hy2
      · exact hnx
      · have h1 := sep_cons_all hsepPost y hy2
        have := Blk.addr_lt_endAddr nx
        omega
  have hpostStart : ∀ y ∈ post, b.endAddr ≤ y.addr := by
    intro y hy
    have hyy := Blk.addr_lt_endAddr y
    have hgt := hpostGt y hy
    rcases hd y (List.mem_append_right _ hy) with h | h
    · exact h
    · omega
  rcases List.eq_nil_or_concat' pre with rfl | ⟨pre1, p, rfl⟩
  · cases post with
    | nil =>
      have hres : Collam.insert (([] : List Blk) ++ ([] : List Blk)) b = .ok [b] := by
        unfold Collam.insert
        rw [hfb]
        rfl
      exact ⟨[b], hres,
        insert_result_props ([] ++ []) [] [] b b (by simp) (by simp)
          List.chain'_nil List.chain'_nil (by simp) (by simp)
          le_rfl le_rfl (fun c _ hcb => hcb) (fun B _ hbB => hbB)⟩
    | cons nx post1 =>
      have hnxmem : nx ∈ ([] : List Blk) ++ nx :: post1 :=
        List.mem_append_right _ (List.mem_cons_self nx post1)
      by_cases hadj2 : b.endAddr = nx.addr
      · have hres : Collam.insert (([] : List Blk) ++ nx :: post1) b =
            .ok ([] ++ mergeBlk b nx :: post1) := by
          unfold Collam.insert
          rw [hfb]
          simp only [List.getLast?_nil, List.head?_cons, List.tail_cons]
          rw [if_pos hadj2]
        refine ⟨_, hres, ?_⟩
        apply insert_result_props ([] ++ nx :: post1) [] post1 (mergeBlk b nx) b
          (by simp) (fun x hx => List.mem_append_right _ (List.mem_cons_of_mem nx hx))
          List.chain'_nil hsepPost.tail_sep (by simp)
        · intro y hy
          rw [mergeBlk_endAddr b nx hadj2]
          exact (List.chain'_cons'.1 hsepPost).1 y hy
        · exact le_of_eq (mergeBlk_addr b nx).symm
        · rw [mergeBlk_endAddr b nx hadj2]
          have := Blk.addr_lt_endAddr nx
          omega
        · exact fun c hc hcb => disj_merge hadj2 hcb (hc nx hnxmem)
        · intro B hB hbB
          rw [mergeBlk_endAddr b nx hadj2]
          exact hB nx hnxmem
      · have hres : Collam.insert (([] : List Blk) ++ nx :: post1) b =
            .ok ([] ++ b :: nx :: post1) := by
          unfold Collam.insert
          rw [hfb]
          simp only [List.getLast?_nil, List.head?_cons, List.tail_cons]
          rw [if_neg hadj2]
        refine ⟨_, hres, ?_⟩
        apply insert_result_props ([] ++ nx :: post1) [] (nx :: post1) b b
          (by simp) (fun x hx => List.mem_append_right _ hx)
          List.chain'_nil hsepPost (by simp)
        · intro y hy
          simp only [List.head?_cons, Option.mem_def, Option.some.injEq] at hy
          subst hy
          exact lt_of_le_of_ne (hpostStart nx (List.mem_cons_self nx post1)) hadj2
        · exact le_rfl
        · exact le_rfl
        · exact fun c _ hcb => hcb
        · exact fun B _ hbB => hbB
  · have hpwPre2 := hpwPre
    rw [List.pairwise_append] at hpwPre2
    obtain ⟨hpwPre1, hpwp2, hcrossP⟩ := hpwPre2
    have hsepPre1 : Separated pre1 := pairwise_sep hpwPre1
    have hp1p : ∀ x ∈ pre1, x.endAddr < p.addr :=
      fun x hx => hcrossP x hx p (List.mem_singleton_self p)
    have hpmem : p ∈ (pre1 ++ [p]) ++ post :=
      List.mem_append_left _ (List.mem_append_right _ (List.mem_singleton_self p))
    have hpEnd : p.endAddr ≤ b.addr :=
      hpreEnd p (List.mem_append_right _ (List.mem_singleton_self p))
    have hpa := Blk.addr_lt_endAddr p
    have hsub1a : ∀ x ∈ pre1, x ∈ (pre1 ++ [p]) ++ post :=
      fun x hx => List.mem_append_left _ (List.mem_append_left _ hx)
    by_cases hadj1 : p.endAddr = b.addr
    · have hm0end : (mergeBlk p b).endAddr = b.endAddr := mergeBlk_endAddr p b hadj1
      cases post with
      | nil =>
        have hres : Collam.insert ((pre1 ++ [p]) ++ ([] : List Blk)) b =
            .ok (pre1 ++ mergeBlk p b :: []) := by
          unfold Collam.insert
          rw [hfb]
          simp only [List.getLast?_concat, List.dropLast_concat, List.head?_nil]
          rw [if_pos hadj1]
        refine ⟨_, hres, ?_⟩
        apply insert_result_props ((pre1 ++ [p]) ++ []) pre1 [] (mergeBlk p b) b
          hsub1a (by simp) hsepPre1 List.chain'_nil (fun x hx => hp1p x hx) (by simp)
        · rw [mergeBlk_addr]
          omega
        · rw [hm0end]
        · exact fun c hc hcb => disj_merge hadj1 (hc p hpmem) hcb
        · intro B hB hbB
          rw [hm0end]
          exact hbB
      | cons nx post1 =>
        have hnxmem : nx ∈ (pre1 ++ [p]) ++ nx :: post1 :=
          List.mem_append_right _ (List.mem_cons_self nx post1)
        by_cases hadj2 : (mergeBlk p b).endAddr = nx.addr
        · have hres : Collam.insert ((pre1 ++ [p]) ++ nx :: post1) b =
              .ok (pre1 ++ mergeBlk (mergeBlk p b) nx :: post1) := by
            unfold Collam.insert
            rw [hfb]
            simp only [List.getLast?_concat, List.dropLast_concat, List.head?_cons,
              List.tail_cons]
            rw [if_pos hadj1, if_pos hadj2]
          refine ⟨_, hres, ?_⟩
          apply insert_result_props ((pre1 ++ [p]) ++ nx :: post1) pre1 post1
            (mergeBlk (mergeBlk p b) nx) b hsub1a
            (fun x hx => List.mem_append_right _ (List.mem_cons_of_mem nx hx))
            hsepPre1 hsepPost.tail_sep (fun x hx => hp1p x hx)
          · intro y hy
            rw [mergeBlk_endAddr (mergeBlk p b) nx hadj2]
            exact (List.chain'_cons'.1 hsepPost).1 y hy
          · rw [mergeBlk_addr, mergeBlk_addr]
            omega
          · rw [mergeBlk_endAddr (mergeBlk p b) nx hadj2]
            rw [hm0end] at hadj2
            have := Blk.addr_lt_endAddr nx
            omega
          · exact fun c hc hcb =>
              disj_merge hadj2 (disj_merge hadj1 (hc p hpmem) hcb) (hc nx hnxmem)
          · intro B hB hbB
            rw [mergeBlk_endAddr (mergeBlk p b) nx hadj2]
            exact hB nx hnxmem
        · have hres : Collam.insert ((pre1 ++ [p]) ++ nx :: post1) b =
              .ok (pre1 ++ mergeBlk p b :: nx :: post1) := by
            unfold Collam.insert
            rw [hfb]
            simp only [List.getLast?_concat, List.dropLast_concat, List.head?_cons,
              List.tail_cons]
            rw [if_pos hadj1, if_neg hadj2]
          refine ⟨_, hres, ?_⟩
          apply insert_result_props ((pre1 ++ [p]) ++ nx :: post1) pre1 (nx :: post1)
            (mergeBlk p b) b hsub1a (fun x hx => List.mem_append_right _ hx)
            hsepPre1 hsepPost (fun x hx => hp1p x hx)
          · intro y hy
            simp only [List.head?_cons, Option.mem_def, Option.some.injEq] at hy
            subst hy
            rw [hm0end]
            refine lt_of_le_of_ne (hpostStart nx (List.mem_cons_self nx post1)) ?_
            rw [← hm0end]
            exact hadj2
          · rw [mergeBlk_addr]
            omega
          · rw [hm0end]
          · exact fun c hc hcb => disj_merge hadj1 (hc p hpmem) hcb
          · intro B hB hbB
            rw [hm0end]
            exact hbB
    · have hpltb : p.endAddr < b.addr := lt_of_le_of_ne hpEnd hadj1
      have hgap1a : ∀ x ∈ pre1 ++ [p], x.endAddr < b.addr := by
        intro x hx
        rcases List.mem_append.1 hx with hx1 | hx2
        · have h1 := hp1p x hx1
          omega
        · have hxp : x = p := List.mem_singleton.1 hx2
          subst hxp
          exact hpltb
      cases post with
      | nil =>
        have hres : Collam.insert ((pre1 ++ [p]) ++ ([] : List Blk)) b =
            .ok ((pre1 ++ [p]) ++ b :: []) := by
          unfold Collam.insert
          rw [hfb]
          simp only [List.getLast?_concat, List.dropLast_concat, List.head?_nil]
          rw [if_neg hadj1]
        refine ⟨_, hres, ?_⟩
        apply insert_result_props ((pre1 ++ [p]) ++ []) (pre1 ++ [p]) [] b b
          (fun x hx => List.mem_append_left _ hx) (by simp)
          hsepPre List.chain'_nil hgap1a (by simp)
        · exact le_rfl
        · exact le_rfl
        · exact fun c _ hcb => hcb
        · exact fun B _ hbB => hbB
      | cons nx post1 =>
        have hnxmem : nx ∈ (pre1 ++ [p]) ++ nx :: post1 :=
          List.mem_append_right _ (List.mem_cons_self nx post1)
        by_cases hadj2 : b.endAddr = nx.addr
        · have hres : Collam.insert ((pre1 ++ [p]) ++ nx :: post1) b =
              .ok ((pre1 ++ [p]) ++ mergeBlk b nx :: post1) := by
            unfold Collam.insert
            rw [hfb]
            simp only [List.getLast?_concat, List.dropLast_concat, List.head?_cons,
              List.tail_cons]
            rw [if_neg hadj1, if_pos hadj2]
          refine ⟨_, hres, ?_⟩
          apply insert_result_props ((pre1 ++ [p]) ++ nx :: post1) (pre1 ++ [p]) post1
            (mergeBlk b nx) b (fun x hx => List.mem_append_left _ hx)
            (fun x hx => List.mem_append_right _ (List.mem_cons_of_mem nx hx))
            hsepPre hsepPost.tail_sep (fun x hx => hgap1a x hx)
          · intro y hy
            rw [mergeBlk_endAddr b nx hadj2]
            exact (List.chain'_cons'.1 hsepPost).1 y hy
          · exact le_of_eq (mergeBlk_addr b nx).symm
          · rw [mergeBlk_endAddr b nx hadj2]
            have := Blk.addr_lt_endAddr nx
            omega
          · exact fun c hc hcb => disj_merge hadj2 hcb (hc nx hnxmem)
          · intro B hB hbB
            rw [mergeBlk_endAddr b nx hadj2]
            exact hB nx hnxmem
        · have hres : Collam.insert ((pre1 ++ [p]) ++ nx :: post1) b =
              .ok ((pre1 ++ [p]) ++ b :: nx :: post1) := by
            unfold Collam.insert
            rw [hfb]
            simp only [List.getLast?_concat, List.dropLast_concat, List.head?_cons,
              List.tail_cons]
            rw [if_neg hadj1, if_neg hadj2]
          refine ⟨_, hres, ?_⟩
          apply insert_result_props ((pre1 ++ [p]) ++ nx :: post1) (pre1 ++ [p])
            (nx :: post1) b b (fun x hx => List.mem_append_left _ hx)
            (fun x hx => List.mem_append_right _ hx)
            hsepPre hsepPost hgap1a
          · intro y hy
            simp only [List.head?_cons, Option.mem_def, Option.some.injEq] at hy
            subst hy
            exact lt_of_le_of_ne (hpostStart nx (List.mem_cons_self nx post1)) hadj2
          · exact le_rfl
          · exact le_rfl
          · exact fun c _ hcb => hcb
          · exact fun B _ hbB => hbB

theorem disj_symm {a b : Blk} (h : disj a b) : disj b a := h.elim Or.inr Or.inl

/-! State-level preservation lemmas. -/

theorem arenaRelease_eq_insert (s : HeapState) (b : Blk) (h : b.endAddr ≠ s.brk) :
    arenaRelease s b =
      (match Collam.insert s.list b with
       | .ok L2 => { list := L2, srcSize := s.srcSize, brk := s.brk }
       | .error _ => s) := by
  unfold arenaRelease
  rw [(sourceRelease_spec s b).2 h]

theorem arenaRelease_eq_top (s : HeapState) (b : Blk) (h : b.endAddr = s.brk) :
    arenaRelease s b =
      { list := s.list, srcSize := s.srcSize - b.footprint, brk := s.brk - b.footprint } := by
  unfold arenaRelease
  rw [(sourceRelease_spec s b).1 h]

theorem arenaRelease_inv (s : HeapState) (b : Blk) (hi : Inv s) (hf : FreshFor s b) :
    Inv (arenaRelease s b) := by
  obtain ⟨hsep, hbound⟩ := hi
  obtain ⟨hdisj, hend⟩ := hf
  by_cases htop : b.endAddr = s.brk
  · rw [arenaRelease_eq_top s b htop]
    refine ⟨hsep, ?_⟩
    intro x hx
    have hx2 : x ∈ s.list := hx
    have hxa := Blk.addr_lt_endAddr x
    have hxb := hbound x hx2
    show x.endAddr ≤ s.brk - b.footprint
    have hfoot : b.footprint = BLOCK_META_SIZE + b.size := rfl
    have hendd : b.endAddr = b.addr + BLOCK_META_SIZE + b.size := rfl
    rcases hdisj x hx2 with h | h <;> omega
  · rw [arenaRelease_eq_insert s b htop]
    obtain ⟨L2, hok, hsep2, _, _, hbound2⟩ := insert_sep s.list b hsep hdisj
    rw [hok]
    exact ⟨hsep2, fun x hx => hbound2 s.brk hbound hend x hx⟩

theorem arenaRelease_fresh (s : HeapState) (b c : Blk) (hi : Inv s) (hfb : FreshFor s b)
    (hfc : FreshFor s c) (hdcb : disj c b) : FreshFor (arenaRelease s b) c := by
  obtain ⟨hsep, hbound⟩ := hi
  obtain ⟨hdisjb, hendb⟩ := hfb
  obtain ⟨hdisjc, hendc⟩ := hfc
  have hcc := Blk.addr_lt_endAddr c
  by_cases htop : b.endAddr = s.brk
  · rw [arenaRelease_eq_top s b htop]
    refine ⟨fun x hx => hdisjc x hx, ?_⟩
    show c.endAddr ≤ s.brk - b.footprint
    have hfoot : b.footprint = BLOCK_META_SIZE + b.size := rfl
    have hendd : b.endAddr = b.addr + BLOCK_META_SIZE + b.size := rfl
    rcases hdcb with h | h <;> omega
  · rw [arenaRelease_eq_insert s b htop]
    obtain ⟨L2, hok, _, _, hdisjpres, _⟩ := insert_sep s.list b hsep hdisjb
    rw [hok]
    exact ⟨fun y hy => hdisjpres c hdisjc hdcb y hy, hendc⟩

theorem arenaRequest_spec (s : HeapState) (n : Nat) (hi : Inv s) :
    ∀ b s1, arenaRequest s n = some (b, s1) →
      Inv s1 ∧ FreshFor s1 b ∧ s.brk ≤ s1.brk ∧
      (∀ c, FreshFor s c → FreshFor s1 c ∧ disj c b) ∧ n ≤ b.size := by
  intro b s1 hreq
  obtain ⟨hsep, hbound⟩ := hi
  unfold arenaRequest at hreq
  cases hpop : pop s.list n with
  | some blL =>
    obtain ⟨bb, L2⟩ := blL
    rw [hpop] at hreq
    simp only [Option.some.injEq, Prod.mk.injEq] at hreq
    obtain ⟨rfl, rfl⟩ := hreq
    obtain ⟨hcond, pre, post, hL, hL2, hpref⟩ := (pop_first_fit s.list n).2 bb L2 hpop
    subst hL2
    have hsepL : Separated (pre ++ bb :: post) := hL ▸ hsep
    have hrem := sep_remove hsepL
    have hmemL : ∀ x ∈ pre ++ post, x ∈ s.list := by
      intro x hx
      rw [hL]
      rcases List.mem_append.1 hx with h1 | h2
      · exact List.mem_append_left _ h1
      · exact List.mem_append_right _ (List.mem_cons_of_mem bb h2)
    have hbbmem : bb ∈ s.list := by
      rw [hL]
      exact List.mem_append_right _ (List.mem_cons_self bb post)
    refine ⟨⟨hrem.1, fun x hx => hbound x (hmemL x hx)⟩,
      ⟨fun x hx => hrem.2 x hx, hbound bb hbbmem⟩, le_rfl, ?_, ?_⟩
    · intro c hc
      exact ⟨⟨fun x hx => hc.1 x (hmemL x hx), hc.2⟩, hc.1 bb hbbmem⟩
    · rcases hcond with h | h <;> omega
  | none =>
    rw [hpop] at hreq
    unfold sourceRequest at hreq
    cases hpad : pad_to_align (BLOCK_META_SIZE + n) PAGE_SIZE with
    | none => rw [hpad] at hreq; cases hreq
    | some sz =>
      rw [hpad] at hreq
      simp only [Option.some.injEq, Prod.mk.injEq] at hreq
      obtain ⟨rfl, rfl⟩ := hreq
      have hszge : BLOCK_META_SIZE + n ≤ sz := by
        have hle := le_align_val_unchecked (BLOCK_META_SIZE + n) PAGE_SIZE (by decide)
        unfold pad_to_align align_val at hpad
        split_ifs at hpad with hov
        injection hpad with hh
        omega
      have hM : BLOCK_META_SIZE = 16 := by decide
      refine ⟨⟨hsep, ?_⟩, ⟨?_, ?_⟩, ?_, ?_, ?_⟩
      · intro x hx
        have hx2 : x ∈ s.list := hx
        show x.endAddr ≤ s.brk + sz
        have := hbound x hx2
        omega
      · intro x hx
        have hx2 : x ∈ s.list := hx
        refine Or.inr ?_
        show x.endAddr ≤ s.brk
        exact hbound x hx2
      · show s.brk + BLOCK_META_SIZE + (sz - BLOCK_META_SIZE) ≤ s.brk + sz
        omega
      · show s.brk ≤ s.brk + sz
        omega
      · intro c hc
        refine ⟨⟨fun x hx => hc.1 x hx, ?_⟩, Or.inl ?_⟩
        · show c.endAddr ≤ s.brk + sz
          have := hc.2
          omega
        · show c.endAddr ≤ s.brk
          exact hc.2
      · show n ≤ sz - BLOCK_META_SIZE
        omega

theorem blk_shrink_spec (b : Blk) (n : Nat) :
    ∀ hd rem, b.shrink n = some (hd, rem) →
      hd.addr = b.addr ∧ hd.size = n ∧ rem.addr = b.addr + BLOCK_META_SIZE + n ∧
      rem.endAddr = b.endAddr ∧ b.addr ≤ rem.addr ∧ n ≤ b.size := by
  intro hd rem hs
  unfold Blk.shrink at hs
  split_ifs at hs with h1 h2
  simp only [Option.some.injEq, Prod.mk.injEq] at hs
  obtain ⟨rfl, rfl⟩ := hs
  refine ⟨rfl, rfl, rfl, ?_, ?_, by omega⟩
  · show (b.addr + BLOCK_META_SIZE + n) + BLOCK_META_SIZE + (b.size - (n + BLOCK_META_SIZE)) =
      b.addr + BLOCK_META_SIZE + b.size
    omega
  · show b.addr ≤ b.addr + BLOCK_META_SIZE + n
    omega

theorem collamAlloc_inv (s : HeapState) (n : Nat) (hi : Inv s) :
    Inv (collamAlloc s n).2 ∧
    (∀ c, FreshFor s c → FreshFor (collamAlloc s n).2 c) := by
  by_cases hz : n = 0
  · simp only [collamAlloc, if_pos hz]
    exact ⟨hi, fun c hc => hc⟩
  cases hpad : pad_min_align n with
  | none =>
    simp only [collamAlloc, if_neg hz, hpad]
    exact ⟨hi, fun c hc => hc⟩
  | some padded =>
    cases hreq : arenaRequest s (max padded BLOCK_MIN_REGION_SIZE) with
    | none =>
      simp only [collamAlloc, if_neg hz, hpad, hreq]
      exact ⟨hi, fun c hc => hc⟩
    | some bs1 =>
      obtain ⟨b, s1⟩ := bs1
      obtain ⟨hi1, hfb1, hbrk1, hcpres, hsize⟩ :=
        arenaRequest_spec s _ hi b s1 hreq
      cases hshr : b.shrink (max padded BLOCK_MIN_REGION_SIZE) with
      | none =>
        simp only [collamAlloc, if_neg hz, hpad, hreq, hshr]
        exact ⟨hi1, fun c hc => (hcpres c hc).1⟩
      | some hr =>
        obtain ⟨hd2, rem⟩ := hr
        obtain ⟨ha1, ha2, ha3, ha4, ha5, ha6⟩ := blk_shrink_spec b _ hd2 rem hshr
        have hfrem : FreshFor s1 rem := by
          refine ⟨fun x hx => ?_, ?_⟩
          · exact disj_symm (disj_sub (disj_symm (hfb1.1 x hx)) ha5 (le_of_eq ha4))
          · rw [ha4]
            exact hfb1.2
        simp only [collamAlloc, if_neg hz, hpad, hreq, hshr]
        refine ⟨arenaRelease_inv s1 rem hi1 hfrem, ?_⟩
        intro c hc
        exact arenaRelease_fresh s1 rem c hi1 hfrem (hcpres c hc).1
          (disj_sub (hcpres c hc).2 ha5 (le_of_eq ha4))

theorem collamRealloc_inv (s : HeapState) (b : Blk) (n : Nat) (hi : Inv s)
    (hf : FreshFor s b) : Inv (collamRealloc s b n).2 := by
  cases hpad : pad_min_align n with
  | none =>
    simp only [collamRealloc, hpad]
    exact hi
  | some m =>
    simp only [collamRealloc, hpad]
    by_cases he : m = b.size
    · rw [if_pos he]
      exact hi
    rw [if_neg he]
    by_cases hlt : b.size < m
    · rw [if_pos hlt]
      obtain ⟨hi2, hcpres⟩ := collamAlloc_inv s m hi
      cases hA : collamAlloc s m with
      | mk res s1 =>
        rw [hA] at hi2 hcpres
        exact arenaRelease_inv s1 b hi2 (hcpres b hf)
    · rw [if_neg hlt]
      cases hshr : b.shrink (max m BLOCK_MIN_REGION_SIZE) with
      | none => exact hi
      | some hr =>
        obtain ⟨hd2, rem⟩ := hr
        obtain ⟨ha1, ha2, ha3, ha4, ha5, ha6⟩ := blk_shrink_spec b _ hd2 rem hshr
        have hfrem : FreshFor s rem := by
          refine ⟨fun x hx => ?_, ?_⟩
          · exact disj_symm (disj_sub (disj_symm (hf.1 x hx)) ha5 (le_of_eq ha4))
          · rw [ha4]
            exact hf.2
        exact arenaRelease_inv s rem hi hfrem

/-! C6: no two adjacent free blocks coexist at operation boundaries. -/

/-- C6: starting from a state whose free list is separated (every block ends strictly
below the start of its successor) and bounded by the break, every allocator operation
(alloc, dealloc of a fresh verified block, realloc of a fresh verified block) yields a
state whose free list is again separated and bounded: address-adjacent free blocks are
always eliminated by merging during insertion, so no two ever coexist in the list. -/
theorem allocator_separated (s : HeapState) (op : AllocOp) (hi : Inv s)
    (hwf : opWF s op) :
    Separated (step s op).list ∧ ∀ x ∈ (step s op).list, x.endAddr ≤ (step s op).brk := by
  cases op with
  | alloc n => exact (collamAlloc_inv s n hi).1
  | dealloc b => exact arenaRelease_inv s b hi hwf
  | realloc b n => exact collamRealloc_inv s b n hi hwf

/-- C6 witness: freeing a fresh block lying between two separated free blocks keeps the
list separated and bounded. -/
theorem allocator_separated_witness :
    Separated (step ⟨[⟨0, 16⟩, ⟨100, 16⟩], 4096, 200⟩ (.dealloc ⟨32, 16⟩)).list ∧
    ∀ x ∈ (step ⟨[⟨0, 16⟩, ⟨100, 16⟩], 4096, 200⟩ (.dealloc ⟨32, 16⟩)).list,
      x.endAddr ≤ (step ⟨[⟨0, 16⟩, ⟨100, 16⟩], 4096, 200⟩ (.dealloc ⟨32, 16⟩)).brk :=
  allocator_separated ⟨[⟨0, 16⟩, ⟨100, 16⟩], 4096, 200⟩ (.dealloc ⟨32, 16⟩)
    ⟨List.chain'_cons.2 ⟨by decide, List.chain'_singleton _⟩, by decide⟩
    (by decide)

/-! C1: order of release versus insert in HeapArena::release. -/

/-- C1 counterexample: the claim says a deallocated block is first inserted into the list
(coalescing with address-adjacent neighbours) and only afterwards is the source asked to
release the post-merge block; arenaReleaseSpec renders exactly that order. On a state
with a resident free block at 100 adjacent to the freed topmost block at 132, the code
releases only the freed block's own footprint and leaves the list untouched, while the
claimed order would coalesce and hand the merged block to the source: the results differ. -/
theorem arenaRelease_order_cex :
    arenaRelease ⟨[⟨100, 16⟩], 232, 196⟩ ⟨132, 48⟩ ≠
      arenaReleaseSpec ⟨[⟨100, 16⟩], 232, 196⟩ ⟨132, 48⟩ := by decide

/-- C1 (amended): on every deallocation of a verified block the allocator first asks the
memory source whether to release the block exactly as freed (pre-merge): when the block
ends at the break the source takes it, the break and accounted size retreat by the
block's own footprint only, and the free list is left untouched; only when the source
declines is the block inserted into the free list, coalescing with address-adjacent
neighbours, after which its bytes are covered by a block of the list. -/
theorem arenaRelease_order (s : HeapState) (b : Blk) :
    (b.endAddr = s.brk →
      arenaRelease s b =
        { list := s.list, srcSize := s.srcSize - b.footprint,
          brk := s.brk - b.footprint }) ∧
    (b.endAddr ≠ s.brk →
      (arenaRelease s b).brk = s.brk ∧ (arenaRelease s b).srcSize = s.srcSize ∧
      (Separated s.list → (∀ x ∈ s.list, disj b x) →
        ∃ y ∈ (arenaRelease s b).list, y.addr ≤ b.addr ∧ b.endAddr ≤ y.endAddr)) := by
  constructor
  · intro h
    exact arenaRelease_eq_top s b h
  · intro h
    rw [arenaRelease_eq_insert s b h]
    cases hins : Collam.insert s.list b with
    | ok L2 =>
      refine ⟨rfl, rfl, ?_⟩
      intro hsep hd
      obtain ⟨L2x, hok, _, hcont, _, _⟩ := insert_sep s.list b hsep hd
      rw [hok] at hins
      injection hins with hh
      subst hh
      exact hcont
    | error e =>
      refine ⟨rfl, rfl, ?_⟩
      intro hsep hd
      obtain ⟨L2x, hok, _, _, _, _⟩ := insert_sep s.list b hsep hd
      rw [hok] at hins
      cases hins

/-- C1 witness: a topmost freed block is taken by the source with the list untouched; a
non-topmost freed block adjacent to a resident block ends up covered by a list block. -/
theorem arenaRelease_order_witness :
    arenaRelease ⟨[⟨100, 16⟩], 232, 196⟩ ⟨132, 48⟩ =
      { list := [⟨100, 16⟩], srcSize := 232 - Blk.footprint ⟨132, 48⟩,
        brk := 196 - Blk.footprint ⟨132, 48⟩ } ∧
    ∃ y ∈ (arenaRelease ⟨[⟨100, 16⟩], 232, 300⟩ ⟨132, 48⟩).list,
      y.addr ≤ (⟨132, 48⟩ : Blk).addr ∧ Blk.endAddr ⟨132, 48⟩ ≤ y.endAddr :=
  ⟨(arenaRelease_order ⟨[⟨100, 16⟩], 232, 196⟩ ⟨132, 48⟩).1 (by decide),
   ((arenaRelease_order ⟨[⟨100, 16⟩], 232, 300⟩ ⟨132, 48⟩).2 (by decide)).2.2
     (List.chain'_singleton _) (by decide)⟩

/-! C10: the minimum-region clamp in Collam::alloc. -/

theorem arenaRequest_size (s : HeapState) (n : Nat) :
    ∀ b s1, arenaRequest s n = some (b, s1) → n ≤ b.size := by
  intro b s1 hreq
  unfold arenaRequest at hreq
  cases hpop : pop s.list n with
  | some blL =>
    obtain ⟨bb, L2⟩ := blL
    rw [hpop] at hreq
    simp only [Option.some.injEq, Prod.mk.injEq] at hreq
    obtain ⟨rfl, rfl⟩ := hreq
    obtain ⟨hcond, _, _, _, _, _⟩ := (pop_first_fit s.list n).2 bb L2 hpop
    rcases hcond with hh | hh <;> omega
  | none =>
    rw [hpop] at hreq
    unfold sourceRequest at hreq
    cases hpad : pad_to_align (BLOCK_META_SIZE + n) PAGE_SIZE with
    | none => rw [hpad] at hreq; cases hreq
    | some sz =>
      rw [hpad] at hreq
      simp only [Option.some.injEq, Prod.mk.injEq] at hreq
      obtain ⟨rfl, rfl⟩ := hreq
      have hszge : BLOCK_META_SIZE + n ≤ sz := by
        have hle := le_align_val_unchecked (BLOCK_META_SIZE + n) PAGE_SIZE (by decide)
        unfold pad_to_align align_val at hpad
        split_ifs at hpad with hov
        injection hpad with hh
        omega
      show n ≤ sz - BLOCK_META_SIZE
      omega

/-- C10 counterexample: BLOCK_MIN_REGION_SIZE is 16 bytes on the modelled 64-bit target
(two pointer-aligned link slots, already a multiple of MIN_ALIGN), not 32; a successful
alloc of 1 byte can return a block whose payload is 16, below the claimed lower bound
max(padded 1, 32) = 32. -/
theorem alloc_min_region_cex :
    BLOCK_MIN_REGION_SIZE = 16 ∧
    (collamAlloc ⟨[⟨0, 16⟩], 4096, 5000⟩ 1).1 = some ⟨0, 16⟩ ∧
    (⟨0, 16⟩ : Blk).size < max (min_align_unchecked 1) 32 := by decide

/-- C10 (amended): every successful alloc clamps the alignment-padded request to at least
BLOCK_MIN_REGION_SIZE, which is 16 bytes on the 64-bit target (two pointer-sized link
slots, alignment-padded), not 32; the returned block's payload, and hence the usable
size, is at least max(padded n, BLOCK_MIN_REGION_SIZE). -/
theorem alloc_min_region (s : HeapState) (n : Nat) (b : Blk) (s2 : HeapState)
    (h : collamAlloc s n = (some b, s2)) :
    BLOCK_MIN_REGION_SIZE = 16 ∧
    max (min_align_unchecked n) BLOCK_MIN_REGION_SIZE ≤ b.size := by
  refine ⟨by decide, ?_⟩
  by_cases hz : n = 0
  · simp only [collamAlloc, if_pos hz, Prod.mk.injEq] at h
    exact absurd h.1 (by simp)
  cases hpad : pad_min_align n with
  | none =>
    simp only [collamAlloc, if_neg hz, hpad, Prod.mk.injEq] at h
    exact absurd h.1 (by simp)
  | some padded =>
    have hpadval : padded = min_align_unchecked n := by
      unfold pad_min_align align_val at hpad
      split_ifs at hpad
      injection hpad with hh
      exact hh.symm
    subst hpadval
    cases hreq : arenaRequest s
        (max (min_align_unchecked n) BLOCK_MIN_REGION_SIZE) with
    | none =>
      simp only [collamAlloc, if_neg hz, hpad, hreq, Prod.mk.injEq] at h
      exact absurd h.1 (by simp)
    | some bs1 =>
      obtain ⟨bb, s1⟩ := bs1
      have hbbsize := arenaRequest_size s _ bb s1 hreq
      cases hshr : bb.shrink (max (min_align_unchecked n) BLOCK_MIN_REGION_SIZE) with
      | none =>
        simp only [collamAlloc, if_neg hz, hpad, hreq, hshr, Prod.mk.injEq,
          Option.some.injEq] at h
        obtain ⟨rfl, rfl⟩ := h
        exact hbbsize
      | some hr =>
        obtain ⟨hd2, rem⟩ := hr
        obtain ⟨_, ha2, _, _, _, _⟩ := blk_shrink_spec bb _ hd2 rem hshr
        simp only [collamAlloc, if_neg hz, hpad, hreq, hshr, Prod.mk.injEq,
          Option.some.injEq] at h
        obtain ⟨rfl, rfl⟩ := h
        omega

/-- C10 witness: allocating 1 byte from a 16-byte free block returns payload 16, which
meets the clamped lower bound max(padded 1, 16). -/
theorem alloc_min_region_witness :
    BLOCK_MIN_REGION_SIZE = 16 ∧
    max (min_align_unchecked 1) BLOCK_MIN_REGION_SIZE ≤ (⟨0, 16⟩ : Blk).size :=
  alloc_min_region ⟨[⟨0, 16⟩], 4096, 5000⟩ 1 ⟨0, 16⟩ ⟨[], 4096, 5000⟩ (by decide)

end Collam
